import Mathlib

/-!
Verification of the downscale-cache-and-comparison pipeline
(`src/unnamed/part_000`, with `src/frqt.js` an earlier variant sharing the
same core functions).

The JavaScript source is shallowly embedded: filenames are lists of
characters, image bytes are lists of naturals, similarity scores are
rationals, and the asynchronous structure (`Promise.all` over `map`)
is embedded as the corresponding pure `List.map`, which preserves the
order of results exactly as `Promise.all` does.  External collaborators
(the sharp codec, SHA-256, the similarity oracle) are parameters.
-/

/-- A cache filename, as a list of characters. -/
abbrev Name := List Char

/-- Image byte buffers. -/
abbrev Bytes := List Nat

/-! ## Filename construction and parsing

`cacheImages` (part_000 line 33) names each entry
`` `${size}-${imgName}.jpg` `` and `compare` (part_000 line 60) recovers the
size with `parseInt(otherImage.split("-")[0], 10)`. -/

/-- Fuel-driven accumulator loop producing the decimal digits of `n` in
front of `acc`; the fuel is always sufficient when it exceeds `n`. -/
def natDigitsAux : Nat → Nat → List Char → List Char
  | 0, _, acc => acc
  | fuel + 1, n, acc =>
    if n < 10 then Nat.digitChar n :: acc
    else natDigitsAux fuel (n / 10) (Nat.digitChar (n % 10) :: acc)

/-- Decimal rendering of a natural number, most significant digit first:
the JS template-literal rendering of the integer `size`. -/
def natDigits (n : Nat) : List Char := natDigitsAux (n + 1) n []

theorem natDigitsAux_acc (fuel n : Nat) (acc : List Char) :
    natDigitsAux fuel n acc = natDigitsAux fuel n [] ++ acc := by
  induction fuel generalizing n acc with
  | zero => rfl
  | succ fuel ih =>
    by_cases h : n < 10
    · simp [natDigitsAux, h]
    · simp only [natDigitsAux, if_neg h]
      rw [ih (n / 10) (Nat.digitChar (n % 10) :: acc),
        ih (n / 10) [Nat.digitChar (n % 10)], List.append_assoc]
      rfl

theorem natDigitsAux_fuel (fuel₁ fuel₂ n : Nat) (h₁ : n < fuel₁)
    (h₂ : n < fuel₂) : natDigitsAux fuel₁ n [] = natDigitsAux fuel₂ n [] := by
  induction fuel₁ generalizing fuel₂ n with
  | zero => omega
  | succ fuel₁ ih =>
    cases fuel₂ with
    | zero => omega
    | succ fuel₂ =>
      by_cases h : n < 10
      · simp only [natDigitsAux, if_pos h]
      · have hdiv : n / 10 < n := Nat.div_lt_self (by omega) (by omega)
        simp only [natDigitsAux, if_neg h]
        rw [natDigitsAux_acc fuel₁, natDigitsAux_acc fuel₂,
          ih fuel₂ (n / 10) (by omega) (by omega)]

/-- Recursive unfolding of the decimal rendering. -/
theorem natDigits_eq (n : Nat) :
    natDigits n = if n < 10 then [Nat.digitChar n]
      else natDigits (n / 10) ++ [Nat.digitChar (n % 10)] := by
  by_cases h : n < 10
  · rw [natDigits]
    simp only [natDigitsAux, if_pos h]
  · have hdiv : n / 10 < n := Nat.div_lt_self (by omega) (by omega)
    rw [natDigits]
    simp only [natDigitsAux, if_neg h]
    rw [natDigitsAux_acc n (n / 10) [Nat.digitChar (n % 10)], natDigits,
      natDigitsAux_fuel n (n / 10 + 1) (n / 10) (by omega) (by omega)]

/-- The cache entry filename `` `${size}-${hash}.jpg` `` (part_000 line 33). -/
def entryName (size : Nat) (hash : List Char) : Name :=
  natDigits size ++ '-' :: (hash ++ ['.', 'j', 'p', 'g'])

/-- Value of a run of decimal digit characters, as accumulated by JS
`parseInt` with radix 10. -/
def digitsVal (ds : List Char) : Nat :=
  ds.foldl (fun a c => 10 * a + (c.toNat - 48)) 0

/-- The maximal leading digit run of a string, or `none` when it is empty
(in which case `parseInt` yields `NaN`). -/
def parseDigitsJs (s : List Char) : Option Nat :=
  let ds := s.takeWhile Char.isDigit
  if ds.isEmpty then none else some (digitsVal ds)

/-- Model of JS `parseInt(s, 10)`: skip leading whitespace, read an optional
sign, then the maximal leading digit run; `none` models `NaN`. -/
def parseIntJs (s : List Char) : Option Int :=
  let t := s.dropWhile Char.isWhitespace
  if t.head? = some '-' then (parseDigitsJs t.tail).map (fun n => -(n : Int))
  else if t.head? = some '+' then (parseDigitsJs t.tail).map (fun n => (n : Int))
  else (parseDigitsJs t).map (fun n => (n : Int))

/-- `otherImage.split("-")[0]`: the characters before the first dash. -/
def sizePart (name : Name) : List Char := name.takeWhile (fun c => c != '-')

/-- `parseInt(otherImage.split("-")[0], 10)` (part_000 line 60). -/
def parseSize (name : Name) : Option Int := parseIntJs (sizePart name)

/-! ## Comparison engine (part_000 lines 45–65) -/

/-- One comparison outcome `{ size, score }` (part_000 line 63).  The size
is the result of `parseInt` (`none` models `NaN`), the score a rational. -/
structure ComparisonResult where
  size : Option Int
  score : ℚ
deriving DecidableEq, Repr

/-- The listing against which a subject is compared (part_000 lines 53–57):
`indexOf` the subject, and when present remove it with the copying
`toSpliced(index, 1)`. -/
def compareOthers (img : Name) (images : List Name) : List Name :=
  match List.indexOf? img images with
  | some i => images.eraseIdx i
  | none => images

/-- `compare(img, images)` (part_000 lines 52–65): score the subject against
each remaining entry, taking the size from the other entry's filename. -/
def compare (oracle : Name → Name → ℚ) (img : Name) (images : List Name) :
    List ComparisonResult :=
  (compareOthers img images).map
    (fun other => { size := parseSize other, score := oracle img other })

/-- `runAllComparisons(cachePath)` (part_000 lines 45–50): the directory
listing mapped through `compare`, every subject against the same listing. -/
def runAllComparisons (oracle : Name → Name → ℚ) (listing : List Name) :
    List (List ComparisonResult) :=
  listing.map (fun img => compare oracle img listing)

/-! ## Digit lemmas -/

theorem digitChar_isDigit {d : Nat} (h : d < 10) :
    (Nat.digitChar d).isDigit = true := by
  interval_cases d <;> decide

theorem digitChar_val {d : Nat} (h : d < 10) :
    (Nat.digitChar d).toNat - 48 = d := by
  interval_cases d <;> decide

theorem natDigits_all_digits (n : Nat) :
    ∀ c ∈ natDigits n, c.isDigit = true := by
  induction n using Nat.strong_induction_on with
  | _ n ih =>
    rw [natDigits_eq]
    by_cases h : n < 10
    · rw [if_pos h]
      intro c hc
      simp only [List.mem_singleton] at hc
      subst hc
      exact digitChar_isDigit h
    · rw [if_neg h]
      intro c hc
      rcases List.mem_append.mp hc with hc | hc
      · exact ih (n / 10) (Nat.div_lt_self (by omega) (by omega)) c hc
      · simp only [List.mem_singleton] at hc
        subst hc
        exact digitChar_isDigit (Nat.mod_lt _ (by omega))

theorem natDigits_ne_nil (n : Nat) : natDigits n ≠ [] := by
  rw [natDigits_eq]
  by_cases h : n < 10 <;> simp [h]

theorem digitsVal_append_one (ds : List Char) (c : Char) :
    digitsVal (ds ++ [c]) = 10 * digitsVal ds + (c.toNat - 48) := by
  simp [digitsVal, List.foldl_append]

theorem digitsVal_natDigits (n : Nat) : digitsVal (natDigits n) = n := by
  induction n using Nat.strong_induction_on with
  | _ n ih =>
    rw [natDigits_eq]
    by_cases h : n < 10
    · rw [if_pos h]
      show digitsVal ([] ++ [Nat.digitChar n]) = n
      rw [digitsVal_append_one]
      simp [digitsVal, digitChar_val h]
    · rw [if_neg h, digitsVal_append_one,
        ih (n / 10) (Nat.div_lt_self (by omega) (by omega)),
        digitChar_val (Nat.mod_lt _ (by omega))]
      omega

theorem takeWhile_append_stop {p : Char → Bool} {l : List Char} {x : Char}
    (r : List Char) (hl : ∀ c ∈ l, p c = true) (hx : p x = false) :
    (l ++ x :: r).takeWhile p = l := by
  induction l with
  | nil => simp [List.takeWhile_cons, hx]
  | cons a l ih =>
    have ha : p a = true := hl a (List.mem_cons_self a l)
    simp only [List.cons_append, List.takeWhile_cons, ha, if_true]
    rw [ih (fun c hc => hl c (List.mem_cons_of_mem a hc))]

theorem takeWhile_eq_self_of_all {p : Char → Bool} {l : List Char}
    (hl : ∀ c ∈ l, p c = true) : l.takeWhile p = l := by
  induction l with
  | nil => rfl
  | cons a l ih =>
    simp only [List.takeWhile_cons, hl a (List.mem_cons_self a l), if_true]
    rw [ih (fun c hc => hl c (List.mem_cons_of_mem a hc))]

theorem dropWhile_eq_self_of_none {p : Char → Bool} {l : List Char}
    (hl : ∀ c ∈ l, p c = false) : l.dropWhile p = l := by
  cases l with
  | nil => rfl
  | cons a l => simp [List.dropWhile_cons, hl a (List.mem_cons_self a l)]

theorem isDigit_not_special {c : Char} (h : c.isDigit = true) :
    c.isWhitespace = false ∧ c ≠ '-' ∧ c ≠ '+' := by
  refine ⟨?_, ?_, ?_⟩
  · cases hw : c.isWhitespace
    · rfl
    · exfalso
      have hw2 : ((c = ' ' ∨ c = '\t') ∨ c = '\x0d') ∨ c = '\n' := by
        simpa [Char.isWhitespace, decide_eq_true_eq] using hw
      rcases hw2 with ((h1 | h1) | h1) | h1 <;> (subst h1; exact absurd h (by decide))
  · intro hc; subst hc; exact absurd h (by decide)
  · intro hc; subst hc; exact absurd h (by decide)

/-- Parsing the decimal rendering of `n` recovers `n`. -/
theorem parseIntJs_natDigits (n : Nat) :
    parseIntJs (natDigits n) = some (n : Int) := by
  have hall := natDigits_all_digits n
  have hne := natDigits_ne_nil n
  have hdw : (natDigits n).dropWhile Char.isWhitespace = natDigits n :=
    dropWhile_eq_self_of_none (fun c hc => (isDigit_not_special (hall c hc)).1)
  have htw : (natDigits n).takeWhile Char.isDigit = natDigits n :=
    takeWhile_eq_self_of_all hall
  obtain ⟨c, cs, hcons⟩ := List.exists_cons_of_ne_nil hne
  have hc : c.isDigit = true := hall c (by rw [hcons]; exact List.mem_cons_self c cs)
  have hspec := isDigit_not_special hc
  rw [parseIntJs]
  simp only [hdw]
  rw [hcons]
  simp only [List.head?_cons]
  rw [if_neg (by simp [hspec.2.1]), if_neg (by simp [hspec.2.2])]
  rw [← hcons, parseDigitsJs]
  simp only [htw]
  rw [if_neg (by simpa [List.isEmpty_iff] using hne)]
  rw [digitsVal_natDigits n]
  rfl

/-- Round trip: extracting and parsing the size from a generated cache
filename yields the size that generated it, for every hash string. -/
theorem parseSize_entryName (size : Nat) (hash : List Char) :
    parseSize (entryName size hash) = some (size : Int) := by
  have hall := natDigits_all_digits size
  have hsp : sizePart (entryName size hash) = natDigits size := by
    rw [sizePart, entryName]
    exact takeWhile_append_stop _
      (fun c hc => by
        have hcd := (isDigit_not_special (hall c hc)).2.1
        simpa [bne_iff_ne] using hcd)
      (by simp)
  rw [parseSize, hsp]
  exact parseIntJs_natDigits size

/-- Cache filenames determine their components: equal names come from the
same size and the same hash string. -/
theorem entryName_inj {s₁ s₂ : Nat} {h₁ h₂ : List Char}
    (h : entryName s₁ h₁ = entryName s₂ h₂) : s₁ = s₂ ∧ h₁ = h₂ := by
  have hs : s₁ = s₂ := by
    have e₁ := parseSize_entryName s₁ h₁
    have e₂ := parseSize_entryName s₂ h₂
    rw [h, e₂] at e₁
    exact_mod_cast Option.some.inj e₁.symm
  subst hs
  refine ⟨rfl, ?_⟩
  rw [entryName, entryName] at h
  have h2 := List.append_cancel_left h
  have h3 := List.cons.inj h2
  exact List.append_cancel_right h3.2

/-! ## The comparison listing is the original minus the first occurrence of
the subject -/

theorem indexOf?_cons_self (a : Name) (l : List Name) :
    List.indexOf? a (a :: l) = some 0 := by
  simp [List.indexOf?, List.findIdx?_cons]

theorem indexOf?_cons_ne (a b : Name) (l : List Name) (h : a ≠ b) :
    List.indexOf? a (b :: l) = (List.indexOf? a l).map (· + 1) := by
  simp [List.indexOf?, List.findIdx?_cons, beq_iff_eq, h, Ne.symm h]

/-- `indexOf` followed by the copying `toSpliced` removes exactly the first
occurrence of the subject (and is the identity when the subject is not
listed). -/
theorem compareOthers_eq_erase (img : Name) (images : List Name) :
    compareOthers img images = images.erase img := by
  induction images with
  | nil => rfl
  | cons a l ih =>
    by_cases hai : a = img
    · subst hai
      rw [compareOthers, indexOf?_cons_self]
      simp [List.eraseIdx_cons_zero, List.erase_cons_head]
    · rw [compareOthers, indexOf?_cons_ne img a l (Ne.symm hai),
        List.erase_cons_tail (by simp [hai])]
      rw [← ih, compareOthers]
      cases hfound : List.indexOf? img l with
      | none => simp
      | some i => simp [List.eraseIdx_cons_succ]

/-- All scores used in witnesses below. -/
def sampleOracle : Name → Name → ℚ := fun _ _ => 1/2

/-- A sample hash component for witnesses. -/
def sampleHash : List Char := ['a', 'b', 'c']

/-- A second sample hash component for witnesses. -/
def sampleHash2 : List Char := ['d', 'e', 'f']

/-- A sample cache listing of two uniquely named entries for witnesses. -/
def sampleListing : List Name := [entryName 100 sampleHash, entryName 200 sampleHash2]

theorem compare_eq_map (oracle : Name → Name → ℚ) (img : Name)
    (images : List Name) :
    compare oracle img images = (compareOthers img images).map
      (fun other => { size := parseSize other, score := oracle img other }) := rfl

/-! ## C1, C4, C9, C10 -/

/-- C1: for a cache root listing `n` uniquely named entries,
`runAllComparisons` produces exactly `n × (n − 1)` comparison results; no
subject is compared against its own filename, and every subject is compared
against every other listed entry. -/
theorem C1_runAll_pair_count (oracle : Name → Name → ℚ)
    (images : List Name) (h : images.Nodup) :
    ((runAllComparisons oracle images).map List.length).sum
        = images.length * (images.length - 1) ∧
    (∀ img ∈ images, img ∉ compareOthers img images) ∧
    (∀ img ∈ images, ∀ o ∈ images, o ≠ img → o ∈ compareOthers img images) := by
  refine ⟨?_, ?_, ?_⟩
  · rw [runAllComparisons, List.map_map]
    have hlen : ∀ img ∈ images,
        (List.length ∘ fun img => compare oracle img images) img
          = images.length - 1 := by
      intro img hm
      simp only [Function.comp_apply, compare_eq_map, List.length_map,
        compareOthers_eq_erase]
      exact List.length_erase_of_mem hm
    rw [List.map_congr_left hlen, List.map_const', List.sum_replicate,
      smul_eq_mul]
  · intro img _
    rw [compareOthers_eq_erase]
    exact h.not_mem_erase
  · intro img _ o ho hne
    rw [compareOthers_eq_erase]
    exact h.mem_erase_iff.mpr ⟨hne, ho⟩

/-- Witness for C1 on a concrete two-entry listing. -/
theorem C1_runAll_pair_count_witness :
    sampleListing.Nodup ∧
    (((runAllComparisons sampleOracle sampleListing).map List.length).sum
        = sampleListing.length * (sampleListing.length - 1) ∧
    (∀ img ∈ sampleListing, img ∉ compareOthers img sampleListing) ∧
    (∀ img ∈ sampleListing, ∀ o ∈ sampleListing, o ≠ img →
        o ∈ compareOthers img sampleListing)) :=
  ⟨by decide, C1_runAll_pair_count sampleOracle sampleListing (by decide)⟩

/-- C4: each comparison of a subject `s` against another entry `o` yields
`{ size, score }` where `size` is `parseInt` of `o`'s filename prefix — so
a generated cache name `entryName sz h` contributes its own size `sz`, not
the subject's — and `score` is the oracle applied to `(s, o)` in that
order. -/
theorem C4_compare_result_fields (oracle : Name → Name → ℚ) (img : Name)
    (images : List Name) :
    compare oracle img images = (compareOthers img images).map
      (fun other => { size := parseSize other, score := oracle img other }) ∧
    ∀ sz hsh, entryName sz hsh ∈ compareOthers img images →
      ComparisonResult.mk (some (sz : Int)) (oracle img (entryName sz hsh)) ∈
        compare oracle img images := by
  refine ⟨rfl, ?_⟩
  intro sz hsh hmem
  rw [compare_eq_map]
  have : ComparisonResult.mk (some (sz : Int)) (oracle img (entryName sz hsh))
      = { size := parseSize (entryName sz hsh),
          score := oracle img (entryName sz hsh) } := by
    rw [parseSize_entryName]
  rw [this]
  exact List.mem_map_of_mem _ hmem

/-- Witness for C4: in the sample listing, the subject of size 100 receives
the other entry's size 200 and the oracle's score for that ordered pair. -/
theorem C4_compare_result_fields_witness :
    ComparisonResult.mk (some (200 : Int))
        (sampleOracle (entryName 100 sampleHash) (entryName 200 sampleHash2)) ∈
      compare sampleOracle (entryName 100 sampleHash) sampleListing :=
  (C4_compare_result_fields sampleOracle (entryName 100 sampleHash)
    sampleListing).2 200 sampleHash2 (by decide)

/-- C9: the cache naming of `cacheImages` and the size extraction of
`compare` round-trip — parsing the filename generated for a positive size
returns exactly that size, whatever the hash component is. -/
theorem C9_name_size_round_trip (size : Nat) (hash : List Char)
    (_pos : 0 < size) : parseSize (entryName size hash) = some (size : Int) :=
  parseSize_entryName size hash

/-- Witness for C9 at size 100. -/
theorem C9_name_size_round_trip_witness :
    0 < 100 ∧ parseSize (entryName 100 sampleHash) = some (100 : Int) :=
  ⟨by decide, C9_name_size_round_trip 100 sampleHash (by decide)⟩

/-- C10: `compare` receives the shared listing by value and removes the
subject with the copying `toSpliced`, never mutating the listing: in the
pure embedding every subject is compared against the original listing, and
for a unique listing each subject's comparison set is the full original
listing minus exactly that subject. -/
theorem C10_compare_frame (oracle : Name → Name → ℚ) (images : List Name)
    (h : images.Nodup) :
    (∀ img, compareOthers img images = images.erase img) ∧
    (∀ img, compareOthers img images
        = images.filter (fun o => o != img)) ∧
    runAllComparisons oracle images = images.map (fun img =>
      (images.erase img).map
        (fun other => { size := parseSize other, score := oracle img other })) := by
  refine ⟨fun img => compareOthers_eq_erase img images, ?_, ?_⟩
  · intro img
    rw [compareOthers_eq_erase]
    exact h.erase_eq_filter img
  · rw [runAllComparisons]
    exact List.map_congr_left fun img _ => by
      rw [compare_eq_map, compareOthers_eq_erase]

/-- Witness for C10 on the sample listing. -/
theorem C10_compare_frame_witness :
    sampleListing.Nodup ∧
    ((∀ img, compareOthers img sampleListing = sampleListing.erase img) ∧
    (∀ img, compareOthers img sampleListing
        = sampleListing.filter (fun o => o != img)) ∧
    runAllComparisons sampleOracle sampleListing = sampleListing.map (fun img =>
      (sampleListing.erase img).map
        (fun other => { size := parseSize other, score := sampleOracle img other }))) :=
  ⟨by decide, C10_compare_frame sampleOracle sampleListing (by decide)⟩

/-! ## Aggregation (`createChart`, part_000 lines 94–123)

`createChart` receives the flattened comparison results and builds a JS
`Map` from size to the list of scores seen for that size, in stream order:
`orderedResults.set(size, [...(orderedResults.get(size) || []), score])`.
A JS `Map` keeps an existing key at its original position and appends new
keys at the end; `NaN` keys coincide under SameValueZero (modelled by
`none`). -/

/-- One `Map.set` step (part_000 line 97): append the score to the group of
an existing key in place, or add a new singleton group at the end. -/
def insertScore (acc : List (Option Int × List ℚ)) (k : Option Int) (v : ℚ) :
    List (Option Int × List ℚ) :=
  match acc with
  | [] => [(k, [v])]
  | (k', vs) :: rest =>
    if k' = k then (k', vs ++ [v]) :: rest else (k', vs) :: insertScore rest k v

/-- The `orderedResults` map after the `forEach` over the result stream
(part_000 lines 95–98), as an association list in key-insertion order. -/
def orderedResults (results : List ComparisonResult) :
    List (Option Int × List ℚ) :=
  results.foldl (fun acc r => insertScore acc r.size r.score) []

/-- `[...orderedResults.keys()]` (part_000 line 100). -/
def chartLabels (results : List ComparisonResult) : List (Option Int) :=
  (orderedResults results).map Prod.fst

/-- `vals.reduce((c, n) => c + n, 0) / vals.length` (part_000 line 102). -/
def meanScore (vals : List ℚ) : ℚ :=
  (vals.foldl (fun c n => c + n) 0) / vals.length

/-- `[...orderedResults.values()].map(...)` (part_000 lines 101–103). -/
def chartData (results : List ComparisonResult) : List ℚ :=
  (orderedResults results).map (fun p => meanScore p.2)

/-- The aggregated series as (size, mean score) pairs, pairing each chart
label with its datum. -/
def aggregate (results : List ComparisonResult) : List (Option Int × ℚ) :=
  (orderedResults results).map (fun p => (p.1, meanScore p.2))

/-- Modelled from the spec: the order in which sizes are first encountered
while scanning the result stream, each distinct size exactly once. -/
def specFirstSeen : List (Option Int) → List (Option Int)
  | [] => []
  | a :: l => a :: specFirstSeen (l.filter (fun b => b ≠ a))
termination_by l => l.length
decreasing_by exact Nat.lt_succ_of_le (List.length_filter_le _ l)

/-- All scores tagged with size `k`, in stream order. -/
def scoresOf (k : Option Int) (results : List ComparisonResult) : List ℚ :=
  (results.filter (fun r => r.size = k)).map (fun r => r.score)

theorem specFirstSeen_cons (a : Option Int) (l : List (Option Int)) :
    specFirstSeen (a :: l) = a :: specFirstSeen (l.filter (fun b => b ≠ a)) := by
  rw [specFirstSeen]

theorem mem_specFirstSeen (b : Option Int) (l : List (Option Int)) :
    b ∈ specFirstSeen l ↔ b ∈ l := by
  induction l using specFirstSeen.induct with
  | case1 => simp [specFirstSeen]
  | case2 a l ih =>
    rw [specFirstSeen_cons]
    by_cases hba : b = a
    · subst hba
      simp
    · simp only [List.mem_cons, hba, false_or, ih, List.mem_filter,
        decide_eq_true_eq]
      exact ⟨fun h => h.1, fun h => ⟨h, hba⟩⟩

theorem specFirstSeen_nodup (l : List (Option Int)) :
    (specFirstSeen l).Nodup := by
  induction l using specFirstSeen.induct with
  | case1 => simp [specFirstSeen]
  | case2 a l ih =>
    rw [specFirstSeen_cons]
    refine List.nodup_cons.mpr ⟨?_, ih⟩
    rw [mem_specFirstSeen]
    intro hmem
    have h2 := (List.mem_filter.mp hmem).2
    simp at h2

theorem specFirstSeen_snoc (a : Option Int) (l : List (Option Int)) :
    specFirstSeen (l ++ [a])
      = if a ∈ l then specFirstSeen l else specFirstSeen l ++ [a] := by
  induction l using specFirstSeen.induct with
  | case1 => simp [specFirstSeen, specFirstSeen_cons]
  | case2 b l ih =>
    rw [List.cons_append, specFirstSeen_cons, specFirstSeen_cons]
    by_cases hab : a = b
    · subst hab
      have hf : (l ++ [a]).filter (fun c => c ≠ a) = l.filter (fun c => c ≠ a) := by
        simp [List.filter_append]
      rw [hf, if_pos (List.mem_cons_self a l)]
    · have hf : (l ++ [a]).filter (fun c => c ≠ b)
          = l.filter (fun c => c ≠ b) ++ [a] := by
        simp [List.filter_append, hab]
      rw [hf, ih]
      by_cases hal : a ∈ l
      · rw [if_pos (by simp [List.mem_filter, hal, hab]),
          if_pos (List.mem_cons_of_mem b hal)]
      · rw [if_neg (by simp [List.mem_filter, hal]),
          if_neg (by simp [List.mem_cons, hal, hab])]
        rfl

theorem insertScore_not_mem {l : List (Option Int × List ℚ)} {k : Option Int}
    (v : ℚ) (h : k ∉ l.map Prod.fst) : insertScore l k v = l ++ [(k, [v])] := by
  induction l with
  | nil => rfl
  | cons p rest ih =>
    obtain ⟨k', vs⟩ := p
    simp only [List.map_cons, List.mem_cons] at h
    push_neg at h
    rw [insertScore, if_neg (fun hk => h.1 hk.symm), ih h.2, List.cons_append]

theorem insertScore_mem {l : List (Option Int × List ℚ)} {k : Option Int}
    (v : ℚ) (hnd : (l.map Prod.fst).Nodup) (h : k ∈ l.map Prod.fst) :
    insertScore l k v
      = l.map (fun p => if p.1 = k then (p.1, p.2 ++ [v]) else p) := by
  induction l with
  | nil => simp at h
  | cons p rest ih =>
    obtain ⟨k', vs⟩ := p
    simp only [List.map_cons, List.nodup_cons] at hnd
    by_cases hk : k' = k
    · subst hk
      rw [insertScore, if_pos rfl, List.map_cons]
      have h1 : (if (k', vs).1 = k' then ((k', vs).1, (k', vs).2 ++ [v])
          else (k', vs)) = (k', vs ++ [v]) := by simp
      rw [h1]
      have h2 : rest.map (fun p => if p.1 = k' then (p.1, p.2 ++ [v]) else p)
          = rest.map id := by
        refine List.map_congr_left fun p hp => ?_
        have hpk : p.1 ≠ k' :=
          fun hpk2 => hnd.1 (hpk2 ▸ List.mem_map_of_mem Prod.fst hp)
        rw [if_neg hpk]
        rfl
      rw [h2, List.map_id]
    · rw [insertScore, if_neg hk, List.map_cons]
      simp only [if_neg hk]
      rcases List.mem_cons.mp h with hkk | hkrest
      · exact absurd hkk.symm hk
      · rw [ih hnd.2 hkrest]

theorem scoresOf_snoc (k : Option Int) (rs : List ComparisonResult)
    (r : ComparisonResult) :
    scoresOf k (rs ++ [r])
      = scoresOf k rs ++ (if r.size = k then [r.score] else []) := by
  rw [scoresOf, scoresOf, List.filter_append, List.map_append]
  by_cases h : r.size = k <;> simp [h]

theorem scoresOf_not_mem {k : Option Int} {rs : List ComparisonResult}
    (h : k ∉ rs.map (fun r => r.size)) : scoresOf k rs = [] := by
  rw [scoresOf, List.filter_eq_nil_iff.mpr, List.map_nil]
  intro r hr
  simp only [decide_eq_true_eq]
  exact fun hk => h (hk ▸ List.mem_map_of_mem (fun r => r.size) hr)

theorem orderedResults_snoc (rs : List ComparisonResult)
    (r : ComparisonResult) :
    orderedResults (rs ++ [r])
      = insertScore (orderedResults rs) r.size r.score := by
  rw [orderedResults, orderedResults, List.foldl_append]
  rfl

/-- The `orderedResults` map lists the distinct sizes in first-seen order,
each with all the scores tagged with that size, in stream order. -/
theorem orderedResults_eq (rs : List ComparisonResult) :
    orderedResults rs
      = (specFirstSeen (rs.map (fun r => r.size))).map
          (fun k => (k, scoresOf k rs)) := by
  induction rs using List.reverseRecOn with
  | nil => simp [orderedResults, specFirstSeen]
  | append_singleton rs r ih =>
    have hkeys : ((specFirstSeen (rs.map fun r => r.size)).map
        (fun k => (k, scoresOf k rs))).map Prod.fst
          = specFirstSeen (rs.map fun r => r.size) := by
      rw [List.map_map]
      exact List.map_id _
    rw [orderedResults_snoc, ih, List.map_append, List.map_singleton]
    by_cases hmem : r.size ∈ rs.map (fun r => r.size)
    · rw [specFirstSeen_snoc, if_pos hmem,
        insertScore_mem r.score
          (by rw [hkeys]; exact specFirstSeen_nodup _)
          (by rw [hkeys, mem_specFirstSeen]; exact hmem),
        List.map_map]
      refine List.map_congr_left fun k _ => ?_
      simp only [Function.comp_apply]
      by_cases hk : k = r.size
      · subst hk
        rw [if_pos rfl, scoresOf_snoc, if_pos rfl]
      · rw [if_neg hk, scoresOf_snoc, if_neg (fun h => hk h.symm),
          List.append_nil]
    · rw [specFirstSeen_snoc, if_neg hmem,
        insertScore_not_mem r.score
          (by rw [hkeys, mem_specFirstSeen]; exact hmem),
        List.map_append, List.map_singleton]
      congr 1
      · refine List.map_congr_left fun k hks => ?_
        have hk : k ≠ r.size := by
          rw [mem_specFirstSeen] at hks
          exact fun h => hmem (h ▸ hks)
        rw [scoresOf_snoc, if_neg (fun h => hk h.symm), List.append_nil]
      · rw [scoresOf_snoc, if_pos rfl, scoresOf_not_mem hmem,
          List.nil_append]

theorem meanScore_eq_sum_div (vals : List ℚ) :
    meanScore vals = vals.sum / vals.length := by
  rw [meanScore, List.sum_eq_foldl]

/-- C2: the aggregation step of `createChart` groups the comparison results
by size, preserving the order in which sizes are first encountered in the
stream; each distinct input size appears exactly once among the labels, and
each size is mapped to the arithmetic mean of all scores tagged with that
size, regardless of which subject produced them. -/
theorem C2_aggregation (results : List ComparisonResult) :
    chartLabels results = specFirstSeen (results.map (fun r => r.size)) ∧
    (chartLabels results).Nodup ∧
    (∀ k, k ∈ chartLabels results ↔ k ∈ results.map (fun r => r.size)) ∧
    aggregate results
      = (specFirstSeen (results.map (fun r => r.size))).map
          (fun k => (k, (scoresOf k results).sum / (scoresOf k results).length)) := by
  have hlab : chartLabels results
      = specFirstSeen (results.map (fun r => r.size)) := by
    rw [chartLabels, orderedResults_eq, List.map_map]
    exact List.map_id _
  refine ⟨hlab, ?_, ?_, ?_⟩
  · rw [hlab]
    exact specFirstSeen_nodup _
  · intro k
    rw [hlab]
    exact mem_specFirstSeen k _
  · rw [aggregate, orderedResults_eq, List.map_map]
    refine List.map_congr_left fun k _ => ?_
    simp only [Function.comp_apply]
    rw [meanScore_eq_sum_div]

/-! ## Cache population (`cacheImages`, part_000 lines 21–39)

For each source image and each size, `cacheImages` downscales, hashes the
resulting bytes with SHA-256, and writes them under
`` `${size}-${hexdigest}.jpg` ``.  The codec (`sharp`) and the digest are
external collaborators, passed as parameters; the effect of the
`Promise.all` fan-out is the list of performed writes (filename, bytes)
in program order. -/

/-- The writes performed by `cacheImages(images, cachePath, sizes)`
(part_000 lines 25–38): one `(filename, bytes)` pair per (image, size). -/
def cacheWrites {α : Type} (downscale : α → Nat → Bytes)
    (sha256hex : Bytes → List Char) (images : List α) (sizes : List Nat) :
    List (Name × Bytes) :=
  (images.map (fun img => sizes.map (fun size =>
    (entryName size (sha256hex (downscale img size)), downscale img size)))).flatten

/-- The distinct filenames present in the cache root after population:
writes to the same filename overwrite each other. -/
def cacheEntryCount {α : Type} (downscale : α → Nat → Bytes)
    (sha256hex : Bytes → List Char) (images : List α) (sizes : List Nat) :
    Nat :=
  ((cacheWrites downscale sha256hex images sizes).map Prod.fst).dedup.length

/-- The hash component of a cache filename: what follows the first dash,
without the 4-character `.jpg` extension. -/
def hashPart (name : Name) : List Char :=
  let rest := (name.dropWhile (fun c => c != '-')).tail
  rest.take (rest.length - 4)

theorem dropWhile_append_stop {p : Char → Bool} {l : List Char} {x : Char}
    (r : List Char) (hl : ∀ c ∈ l, p c = true) (hx : p x = false) :
    (l ++ x :: r).dropWhile p = x :: r := by
  induction l with
  | nil => simp [List.dropWhile_cons, hx]
  | cons a l ih =>
    simp only [List.cons_append, List.dropWhile_cons,
      hl a (List.mem_cons_self a l), if_true]
    exact ih (fun c hc => hl c (List.mem_cons_of_mem a hc))

theorem hashPart_entryName (size : Nat) (hash : List Char) :
    hashPart (entryName size hash) = hash := by
  have hall := natDigits_all_digits size
  rw [hashPart, entryName]
  have hdrop : ((natDigits size ++ '-' :: (hash ++ ['.', 'j', 'p', 'g'])).dropWhile
      (fun c => c != '-')) = '-' :: (hash ++ ['.', 'j', 'p', 'g']) :=
    dropWhile_append_stop _
      (fun c hc => by
        have hcd := (isDigit_not_special (hall c hc)).2.1
        simpa [bne_iff_ne] using hcd)
      (by simp)
  rw [hdrop]
  show (hash ++ ['.', 'j', 'p', 'g']).take
    ((hash ++ ['.', 'j', 'p', 'g']).length - 4) = hash
  rw [List.length_append]
  show (hash ++ ['.', 'j', 'p', 'g']).take (hash.length + 4 - 4) = hash
  have h4 : hash.length + 4 - 4 = hash.length := by omega
  rw [h4, List.take_left]

/-- C3: every write performed by `cacheImages` stores exactly the codec's
output for its (image, size) pair, under a filename whose hash component is
the digest of exactly those bytes — so re-hashing the stored bytes
reproduces the filename's hash component. -/
theorem C3_cache_entry_invariant {α : Type} (downscale : α → Nat → Bytes)
    (sha256hex : Bytes → List Char) (images : List α) (sizes : List Nat) :
    ∀ e ∈ cacheWrites downscale sha256hex images sizes,
      ∃ img ∈ images, ∃ size ∈ sizes,
        e.2 = downscale img size ∧
        e.1 = entryName size (sha256hex e.2) ∧
        hashPart e.1 = sha256hex e.2 := by
  intro e he
  rw [cacheWrites] at he
  rcases List.mem_flatten.mp he with ⟨l, hl, hel⟩
  rcases List.mem_map.mp hl with ⟨img, himg, rfl⟩
  rcases List.mem_map.mp hel with ⟨size, hsize, rfl⟩
  exact ⟨img, himg, size, hsize, rfl, rfl, hashPart_entryName _ _⟩

/-- A sample codec for witnesses: the bytes record the image id and size. -/
def sampleDownscale (img size : Nat) : Bytes := [img, size]

/-- A sample injective digest for witnesses: the decimal digits of each
byte, concatenated. -/
def sampleSha (b : Bytes) : List Char := b.flatMap natDigits

/-- Witness for C3: a concrete write of `cacheImages` satisfies the
invariant. -/
theorem C3_cache_entry_invariant_witness :
    (entryName 100 (sampleSha (sampleDownscale 1 100)), sampleDownscale 1 100)
        ∈ cacheWrites sampleDownscale sampleSha [1, 2] [100] ∧
    ∃ img ∈ [1, 2], ∃ size ∈ [100],
      (entryName 100 (sampleSha (sampleDownscale 1 100)),
        sampleDownscale 1 100).2 = sampleDownscale img size ∧
      (entryName 100 (sampleSha (sampleDownscale 1 100)),
        sampleDownscale 1 100).1
          = entryName size (sampleSha (entryName 100
              (sampleSha (sampleDownscale 1 100)),
                sampleDownscale 1 100).2) ∧
      hashPart (entryName 100 (sampleSha (sampleDownscale 1 100)),
        sampleDownscale 1 100).1
          = sampleSha (entryName 100 (sampleSha (sampleDownscale 1 100)),
              sampleDownscale 1 100).2 :=
  ⟨by decide,
    C3_cache_entry_invariant sampleDownscale sampleSha [1, 2] [100] _ (by decide)⟩

/-- C6: after population for `m` distinct source images and `k` distinct
requested widths, the cache root holds at most `m × k` distinct filenames,
and exactly `m × k` when no two (image, size) pairs produce byte-identical
downscaled output at the same size.  The digest is assumed collision-free
on the produced outputs (the content-addressing idealization of SHA-256). -/
theorem C6_cache_entry_count {α : Type} [DecidableEq α]
    (downscale : α → Nat → Bytes) (sha256hex : Bytes → List Char)
    (images : List α) (sizes : List Nat)
    (him : images.Nodup) (hsz : sizes.Nodup)
    (hsha : ∀ i₁ ∈ images, ∀ i₂ ∈ images, ∀ s ∈ sizes,
      sha256hex (downscale i₁ s) = sha256hex (downscale i₂ s) →
        downscale i₁ s = downscale i₂ s) :
    cacheEntryCount downscale sha256hex images sizes
        ≤ images.length * sizes.length ∧
    ((∀ i₁ ∈ images, ∀ i₂ ∈ images, ∀ s ∈ sizes,
        downscale i₁ s = downscale i₂ s → i₁ = i₂) →
      cacheEntryCount downscale sha256hex images sizes
        = images.length * sizes.length) := by
  have hnames : (cacheWrites downscale sha256hex images sizes).map Prod.fst
      = (images.map (fun img => sizes.map (fun size =>
          entryName size (sha256hex (downscale img size))))).flatten := by
    rw [cacheWrites, List.map_flatten, List.map_map]
    congr 1
    refine List.map_congr_left fun img _ => ?_
    simp [List.map_map, Function.comp]
  have hlen : ((cacheWrites downscale sha256hex images sizes).map
      Prod.fst).length = images.length * sizes.length := by
    rw [hnames, List.length_flatten, List.map_map]
    have : ∀ img ∈ images,
        (List.length ∘ fun img => sizes.map (fun size =>
          entryName size (sha256hex (downscale img size)))) img
        = sizes.length := by
      intro img _
      simp
    rw [List.map_congr_left this, List.map_const', List.sum_replicate,
      smul_eq_mul]
  constructor
  · rw [cacheEntryCount]
    calc ((cacheWrites downscale sha256hex images sizes).map
          Prod.fst).dedup.length
        ≤ ((cacheWrites downscale sha256hex images sizes).map
          Prod.fst).length := (List.dedup_sublist _).length_le
      _ = images.length * sizes.length := hlen
  · intro hcoll
    have hnodup : ((cacheWrites downscale sha256hex images sizes).map
        Prod.fst).Nodup := by
      rw [hnames, List.nodup_flatten]
      constructor
      · intro l hl
        rcases List.mem_map.mp hl with ⟨img, _, rfl⟩
        exact List.Nodup.map_on
          (fun s₁ _ s₂ _ he => (entryName_inj he).1) hsz
      · rw [List.pairwise_map]
        refine him.imp_of_mem ?_
        intro i₁ i₂ h₁ h₂ hne a ha₁ ha₂
        rcases List.mem_map.mp ha₁ with ⟨s₁, hs₁, rfl⟩
        rcases List.mem_map.mp ha₂ with ⟨s₂, hs₂, he⟩
        obtain ⟨hss, hsh⟩ := entryName_inj he.symm
        subst hss
        exact hne (hcoll i₁ h₁ i₂ h₂ s₁ hs₁
          (hsha i₁ h₁ i₂ h₂ s₁ hs₁ hsh))
    rw [cacheEntryCount, List.dedup_eq_self.mpr hnodup, hlen]

/-- Witness for C6: two images and two sizes with collision-free sample
codec and digest yield exactly four cache entries. -/
theorem C6_cache_entry_count_witness :
    ([1, 2] : List Nat).Nodup ∧ ([10, 20] : List Nat).Nodup ∧
    (∀ i₁ ∈ ([1, 2] : List Nat), ∀ i₂ ∈ ([1, 2] : List Nat),
      ∀ s ∈ ([10, 20] : List Nat),
      sampleSha (sampleDownscale i₁ s) = sampleSha (sampleDownscale i₂ s) →
        sampleDownscale i₁ s = sampleDownscale i₂ s) ∧
    (cacheEntryCount sampleDownscale sampleSha [1, 2] [10, 20]
        ≤ ([1, 2] : List Nat).length * ([10, 20] : List Nat).length ∧
      ((∀ i₁ ∈ ([1, 2] : List Nat), ∀ i₂ ∈ ([1, 2] : List Nat),
          ∀ s ∈ ([10, 20] : List Nat),
          sampleDownscale i₁ s = sampleDownscale i₂ s → i₁ = i₂) →
        cacheEntryCount sampleDownscale sampleSha [1, 2] [10, 20]
          = ([1, 2] : List Nat).length * ([10, 20] : List Nat).length)) :=
  ⟨by decide, by decide, by decide,
    C6_cache_entry_count sampleDownscale sampleSha [1, 2] [10, 20]
      (by decide) (by decide) (by decide)⟩

/-! ## Cache-root lifecycle (`clearCache`, part_000 lines 41–43, and the
`try`/`finally` of the main block, part_000 lines 149–156)

The filesystem is modelled by the state of the single cache root: `none`
when it is absent, otherwise its directory entries. -/

/-- The cache root: absent, or present with its entries. -/
abbrev FS := Option (List (Name × Bytes))

/-- Errors of the modelled `fs.rm`. -/
inductive FsError where
  | enoent
  | eisdir
deriving DecidableEq, Repr

/-- Model of node `fs.rm(path, { recursive, force })` on the cache root:
an absent target errors with `ENOENT` unless `force` is set; a directory
target errors unless `recursive` is set; otherwise the target is
removed. -/
def fsRm (recursive force : Bool) (s : FS) : Except FsError FS :=
  match s with
  | none => if force then Except.ok none else Except.error FsError.enoent
  | some _ =>
      if recursive then Except.ok none else Except.error FsError.eisdir

/-- `clearCache(cachePath)` (part_000 lines 41–43):
`fs.rm(cachePath, { recursive: true, force: true })`. -/
def clearCache (s : FS) : Except FsError FS := fsRm true true s

/-- The `try { ... } finally { await clearCache(cachePath) }` of the main
block (part_000 lines 149–156): the body runs first — its outcome is a
value or a propagated error, with its effect on the cache root — and
`clearCache` runs afterwards on every path.  (The error branch of the
match is unreachable: `clearCache` never fails, as proved below.) -/
def mainRun {ε α : Type} (body : FS → Except ε α × FS) (s : FS) :
    Except ε α × FS :=
  let r := body s
  match clearCache r.2 with
  | Except.ok s2 => (r.1, s2)
  | Except.error _ => (r.1, r.2)

/-- C7: `clearCache` never fails when the cache root is absent, removes the
root from any state, and running it twice leaves the same state as running
it once. -/
theorem C7_clearCache_idempotent :
    clearCache none = Except.ok none ∧
    (∀ s : FS, clearCache s = Except.ok none) ∧
    (∀ s : FS, (clearCache s).bind clearCache = clearCache s) := by
  refine ⟨rfl, fun s => ?_, fun s => ?_⟩ <;> cases s <;> rfl

/-- C5: whatever the pipeline body does — success, or a failure anywhere in
discovery, population, or comparison — the `finally` clause runs
`clearCache`, so the cache root does not exist afterwards; the body's
outcome is propagated unchanged. -/
theorem C5_cleanup_on_every_path {ε α : Type} (body : FS → Except ε α × FS)
    (s : FS) :
    (mainRun body s).2 = none ∧ (mainRun body s).1 = (body s).1 := by
  rw [mainRun]
  rcases hb : body s with ⟨r, s1⟩
  cases s1 <;> simp [clearCache, fsRm]

/-! ## CLI argument validation (part_000 lines 128–145)

The `try` block checks, in order: `process.argv.length < 4`;
`fs.access(testdataPath)`; `JSON.parse(process.argv[3])`; and
`!Array.isArray(sizes) || sizes.some(isNaN)`.  Any failure is caught,
reported, and the process exits with code 1 before the pipeline starts.
`JSON.parse` is an external builtin; its result is modelled as an optional
JSON value (`none` when parsing throws).  JS `isNaN` coerces its argument
with `ToNumber`, which for arrays goes through `join(",")`; that coercion
is modelled below. -/

mutual
/-- A JSON value as produced by `JSON.parse`.  Object fields are not
inspected by the argument check, so `obj` carries none. -/
inductive JSValue where
  | null
  | bool (b : Bool)
  | num (q : ℚ)
  | str (s : List Char)
  | arr (elems : JSList)
  | obj

/-- A list of JSON values (spelled out so that recursion over nested
arrays is structural). -/
inductive JSList where
  | nil
  | cons (hd : JSValue) (tl : JSList)
end

/-- Trim leading and trailing whitespace, as `ToNumber` does on strings. -/
def trimChars (s : List Char) : List Char :=
  ((s.dropWhile Char.isWhitespace).reverse.dropWhile Char.isWhitespace).reverse

def isHexDigitChar (c : Char) : Bool :=
  c.isDigit || ('a' ≤ c && c ≤ 'f') || ('A' ≤ c && c ≤ 'F')

/-- The exponent tail of a JS decimal literal: empty, or `e`/`E`, an
optional sign, and at least one digit consuming the rest. -/
def expTail (t : List Char) : Bool :=
  match t with
  | [] => true
  | c :: r =>
    if c = 'e' ∨ c = 'E' then
      let r2 := match r with
        | s :: r3 => if s = '+' ∨ s = '-' then r3 else s :: r3
        | [] => []
      !r2.isEmpty && r2.all Char.isDigit
    else false

/-- An unsigned JS decimal literal: digits, an optional fraction (with at
least one digit somewhere in the mantissa), and an optional exponent. -/
def isDecimalLiteral (t : List Char) : Bool :=
  let ip := t.takeWhile Char.isDigit
  let r1 := t.drop ip.length
  match r1 with
  | '.' :: r2 =>
    let fp := r2.takeWhile Char.isDigit
    let r3 := r2.drop fp.length
    (!ip.isEmpty || !fp.isEmpty) && expTail r3
  | _ => !ip.isEmpty && expTail r1

def infinityChars : List Char := ['I', 'n', 'f', 'i', 'n', 'i', 't', 'y']

/-- A trimmed nonempty string accepted by JS `ToNumber`: a hex, octal or
binary literal, or an optionally signed decimal literal or `Infinity`. -/
def isNumericLiteral (t : List Char) : Bool :=
  match t with
  | '0' :: 'x' :: r => !r.isEmpty && r.all isHexDigitChar
  | '0' :: 'X' :: r => !r.isEmpty && r.all isHexDigitChar
  | '0' :: 'o' :: r => !r.isEmpty && r.all (fun c => '0' ≤ c && c ≤ '7')
  | '0' :: 'O' :: r => !r.isEmpty && r.all (fun c => '0' ≤ c && c ≤ '7')
  | '0' :: 'b' :: r => !r.isEmpty && r.all (fun c => c = '0' || c = '1')
  | '0' :: 'B' :: r => !r.isEmpty && r.all (fun c => c = '0' || c = '1')
  | _ =>
    let core := match t with
      | '+' :: r => r
      | '-' :: r => r
      | _ => t
    core == infinityChars || isDecimalLiteral core

/-- `isNaN(Number(string))`: the empty (trimmed) string coerces to 0; a
non-numeric nonempty string is `NaN`. -/
def strIsNaN (s : List Char) : Bool :=
  let t := trimChars s
  if t.isEmpty then false else !isNumericLiteral t

/-- Decimal rendering of an integer, as JS prints it. -/
def intChars (i : Int) : List Char :=
  match i with
  | Int.ofNat n => natDigits n
  | Int.negSucc n => '-' :: natDigits (n + 1)

/-- Fractional decimal digits of `r / d`, up to `fuel` places.  Models JS
float printing: exact for terminating decimals within `fuel` places,
truncated beyond (JS prints the shortest float round-trip). -/
def fracChars : Nat → Nat → Nat → List Char
  | 0, _, _ => []
  | _, 0, _ => []
  | fuel + 1, r, d => Nat.digitChar (r * 10 / d) :: fracChars fuel (r * 10 % d) d

/-- JS rendering of a number used inside `Array.prototype.join`. -/
def ratToChars (q : ℚ) : List Char :=
  let sign := if q < 0 then ['-'] else ([] : List Char)
  let n := q.num.natAbs
  let d := q.den
  if n % d = 0 then sign ++ natDigits (n / d)
  else sign ++ natDigits (n / d) ++ '.' :: fracChars 20 (n % d) d

mutual
/-- String contribution of one element inside `Array.prototype.join`:
`null` (and holes) contribute the empty string, other values their JS
string coercion. -/
def jsElemString : JSValue → List Char
  | JSValue.null => []
  | JSValue.bool b => if b then ['t', 'r', 'u', 'e'] else ['f', 'a', 'l', 's', 'e']
  | JSValue.num q => ratToChars q
  | JSValue.str s => s
  | JSValue.arr xs => jsJoin xs
  | JSValue.obj => ['[', 'o', 'b', 'j', 'e', 'c', 't', ' ',
      'O', 'b', 'j', 'e', 'c', 't', ']']

/-- `Array.prototype.join(",")`, the `ToPrimitive` of a JS array. -/
def jsJoin : JSList → List Char
  | JSList.nil => []
  | JSList.cons x JSList.nil => jsElemString x
  | JSList.cons x (JSList.cons y tl) =>
      jsElemString x ++ ',' :: jsJoin (JSList.cons y tl)
end

/-- JS `isNaN(v)`: whether `ToNumber(v)` is `NaN`.  Primitives `null`,
booleans and numbers are never `NaN`; strings by their numeric syntax;
arrays through `join`; plain objects always (`"[object Object]"`). -/
def jsIsNaN : JSValue → Bool
  | JSValue.null => false
  | JSValue.bool _ => false
  | JSValue.num _ => false
  | JSValue.str s => strIsNaN s
  | JSValue.arr xs => strIsNaN (jsJoin xs)
  | JSValue.obj => true

/-- `xs.some(p)`. -/
def jsAny (p : JSValue → Bool) : JSList → Bool
  | JSList.nil => false
  | JSList.cons x tl => p x || jsAny p tl

/-- `xs.every(p)`. -/
def jsAll (p : JSValue → Bool) : JSList → Bool
  | JSList.nil => true
  | JSList.cons x tl => p x && jsAll p tl

/-- The argument validation of part_000 lines 128–141: `argc` is
`process.argv.length`, `accessOk` models `fs.access` succeeding, `parsed`
the result of `JSON.parse` (`none` when it throws).  Returns `true`
exactly when the `try` block completes and the pipeline starts;
any failure is caught and the process exits with code 1. -/
def argsCheck (argc : Nat) (accessOk : Bool) (parsed : Option JSValue) :
    Bool :=
  if argc < 4 then false
  else if !accessOk then false
  else match parsed with
    | none => false
    | some v =>
      match v with
      | JSValue.arr xs => !(jsAny jsIsNaN xs)
      | _ => false

/-- Modelled from the spec: "a sizes argument that is not a JSON array of
numbers" — the parsed value is an array whose elements are all numbers. -/
def isJsonArrayOfNumbers (parsed : Option JSValue) : Bool :=
  match parsed with
  | some (JSValue.arr xs) =>
      jsAll (fun v => match v with | JSValue.num _ => true | _ => false) xs
  | _ => false

/-- The process exit code: 1 from the `catch` of the argument block; on a
started pipeline, 0 on success and nonzero (an unhandled rejection) on
failure. -/
def cliExitCode (argc : Nat) (accessOk : Bool) (parsed : Option JSValue)
    (pipelineOk : Bool) : Nat :=
  if argsCheck argc accessOk parsed then (if pipelineOk then 0 else 1) else 1

/-- C8 as stated is false on the code: with four arguments, an accessible
source path, and the sizes argument `[null]` — which is a JSON array but
not an array of numbers — the validation passes (`isNaN(null)` is false
because `Number(null)` is 0), the pipeline starts, and a successful run
exits 0. -/
theorem C8_counterexample :
    argsCheck 4 true
        (some (JSValue.arr (JSList.cons JSValue.null JSList.nil))) = true ∧
    isJsonArrayOfNumbers
        (some (JSValue.arr (JSList.cons JSValue.null JSList.nil))) = false ∧
    cliExitCode 4 true
        (some (JSValue.arr (JSList.cons JSValue.null JSList.nil))) true = 0 := by
  decide

/-- C8 (amended): the CLI exits with code 1 without starting the pipeline
exactly when arguments are missing, the source path is inaccessible, the
sizes argument fails to parse as JSON, parses to a non-array, or parses to
an array containing an element whose JS numeric coercion is NaN — the
`sizes.some(isNaN)` check, which also lets through non-number elements
such as `null`, booleans, or numeric strings.  Otherwise the pipeline
starts, and a successful run exits with code 0. -/
theorem C8_cli_exit (argc : Nat) (accessOk : Bool) (parsed : Option JSValue)
    (pipelineOk : Bool) :
    (argsCheck argc accessOk parsed = false ↔
      argc < 4 ∨ accessOk = false ∨ parsed = none ∨
      (∃ v, parsed = some v ∧ ∀ xs, v ≠ JSValue.arr xs) ∨
      (∃ xs, parsed = some (JSValue.arr xs) ∧ jsAny jsIsNaN xs = true)) ∧
    (argsCheck argc accessOk parsed = false →
      cliExitCode argc accessOk parsed pipelineOk = 1) ∧
    (argsCheck argc accessOk parsed = true → pipelineOk = true →
      cliExitCode argc accessOk parsed pipelineOk = 0) := by
  refine ⟨?_, ?_, ?_⟩
  · rw [argsCheck.eq_def]
    by_cases h4 : argc < 4
    · simp [h4]
    · cases accessOk
      · simp [h4]
      · cases parsed with
        | none => simp [h4]
        | some v =>
          cases v with
          | null => simp [h4]
          | bool b => simp [h4]
          | num q => simp [h4]
          | str s => simp [h4]
          | obj => simp [h4]
          | arr xs =>
            simp [h4]
  · intro hfail
    rw [cliExitCode, hfail]
    rfl
  · intro hok hp
    rw [cliExitCode, hok, hp]
    rfl


/-- Witness for the amended C8: three arguments exit with code 1; four
arguments with an accessible path and sizes `[100]` start the pipeline and
exit 0 on success. -/
theorem C8_cli_exit_witness :
    cliExitCode 3 true none true = 1 ∧
    cliExitCode 4 true
      (some (JSValue.arr (JSList.cons (JSValue.num 100) JSList.nil)))
      true = 0 :=
  ⟨(C8_cli_exit 3 true none true).2.1 (by decide),
   (C8_cli_exit 4 true
      (some (JSValue.arr (JSList.cons (JSValue.num 100) JSList.nil)))
      true).2.2 (by decide) rfl⟩
